import Mathlib

/-!
Verification of the dask-match expression DAG, term-rewriting optimizer and
task-graph compiler (src/dask_match/core.py and src/dask_match/io/parquet.py).

The embedding models the fragment of the node model that the optimizer
manipulates:

* `Expr` is the expression-node type.  Python operands are dynamically typed;
  a plain number operand of a binary operation is modelled by the `lit`
  constructor (Python `numbers.Number` values are not `Expr` instances, which
  the embedding expresses as `Expr.isNum`).  `ReadParquet` keeps the three
  operands the rewrite rules inspect (`path`, `columns`, `filters`); the
  remaining thirteen operands always sit at their declared defaults in the
  trees the rules build and match, so they are elided.  `from_pandas`'s
  `frame` operand (a concrete in-memory table) is opaque to planning and is
  modelled by a label.
* Each matchpy `ReplacementRule` of the source becomes a partial function
  `Expr → Option Expr` encoding its pattern, constraint and rewrite body.
* matchpy's `replace_all` repeatedly replaces the first match found in
  preorder (root first, then operands left to right) and restarts from the
  root until no rule matches; `step` performs one such replacement and
  `rewriteFuel`/`replaceAll` iterate it.  The fuel is the termination measure
  `W`, proved to strictly decrease at every step.
* `optimize` is the source's fixed-point loop, including its stopping rule:
  it compares the printed form (`Expr.pyStr`, modelling `Expr.__str__`) of
  the tree before and after a `replace_all` pass, starting from the printed
  sentinel `None`.
-/

set_option maxHeartbeats 1000000

namespace DaskMatch

/-- A Python "string or list of strings" columns value, as accepted by
`Expr.__getitem__` / `_list_columns`. -/
inductive ColSpec where
  | one : String → ColSpec
  | many : List String → ColSpec
deriving DecidableEq

/-- The binary-operation subclasses of `Binop` in core.py, by their kind. -/
inductive BinKind where
  | add | sub | mul | div | lt | le | gt | ge | eq | ne
deriving DecidableEq

/-- `_operator_repr` of each `Binop` subclass. -/
def BinKind.opRepr : BinKind → String
  | .add => "+"
  | .sub => "-"
  | .mul => "*"
  | .div => "/"
  | .lt => "<"
  | .le => "<="
  | .gt => ">"
  | .ge => ">="
  | .eq => "=="
  | .ne => "!="

/-- `flip_op = {LE: GE, LT: GT, GE: LE, GT: LT}` with `flip_op.get(op, op)`:
comparison kinds other than the four inequalities are left unchanged. -/
def BinKind.flipOp : BinKind → BinKind
  | .le => .ge
  | .lt => .gt
  | .ge => .le
  | .gt => .lt
  | k => k

mutual
/-- Expression nodes (core.py `Expr` subclasses plus plain-number operands).
`readParquet path columns filters` is `ReadParquet` restricted to the three
operands the rules read; `filter` is `Filter(frame, predicate)`; `projection`
is `Projection(frame, columns)`; `binop k left right` covers the ten `Binop`
subclasses; `lit` is a plain Python number used as a `Binop` operand (not an
`Expr` in the source); `fromPandas label npartitions` is `from_pandas`. -/
inductive Expr where
  | readParquet : String → Option ColSpec → OFilters → Expr
  | filter : Expr → Expr → Expr
  | projection : Expr → ColSpec → Expr
  | binop : BinKind → Expr → Expr → Expr
  | lit : Int → Expr
  | fromPandas : String → Nat → Expr
deriving DecidableEq

/-- The `filters` operand of `ReadParquet`: Python `None` or a list. -/
inductive OFilters where
  | none : OFilters
  | some : Filters → OFilters
deriving DecidableEq

/-- A Python list of `(column, operator-symbol, literal)` filter triples.
The third component is whatever operand the predicate-pushdown rule captured
(an `Expr`, normally a `lit`). -/
inductive Filters where
  | nil : Filters
  | cons : ColSpec → String → Expr → Filters → Filters
deriving DecidableEq
end

/-- `isinstance(x, numbers.Number)` on an operand. -/
def Expr.isNum : Expr → Bool
  | .lit _ => true
  | _ => false

/-- `_list_columns` on a single non-`None` columns value: a string becomes a
one-element list, a list stays as is. -/
def listColumns1 : ColSpec → ColSpec
  | .one s => .many [s]
  | .many l => .many l

/-- `_list_columns` on an optional columns operand (`None` passes through). -/
def listColumns : Option ColSpec → Option ColSpec
  | Option.none => Option.none
  | Option.some c => Option.some (listColumns1 c)

/-- Python `filters or []`: `None` and the empty list both give `[]`. -/
def orEmpty : OFilters → Filters
  | .none => .nil
  | .some l => l

/-- Append one `(column, operator-symbol, value)` triple to a filter list
(Python `... + [(d, op._operator_repr, e)]`). -/
def Filters.snoc : Filters → ColSpec → String → Expr → Filters
  | .nil, d, o, v => .cons d o v .nil
  | .cons a b c rest, d, o, v => .cons a b c (Filters.snoc rest d o v)

/-! ## The replacement-rule catalog

Each matchpy `ReplacementRule` is one partial function.  The source registers
rules into the global `replacement_rules` list the first time each class is
constructed; `replacementRules` below is that catalog once every class has
contributed.  The relative order of the four predicate-pushdown variants of
one comparison kind follows the source's yield order (their patterns
overlap); all remaining pairs of rules have disjoint patterns, so their
relative order does not affect which rule fires first at a position. -/

/-- `Filter._replacement_rules`: `Filter(df, condition)[columns]` rewrites to
`df[columns][condition]`. -/
def filterProjectionRule : Expr → Option Expr
  | .projection (.filter df condition) columns =>
      Option.some (.filter (.projection df columns) condition)
  | _ => Option.none

/-- `ReadParquet._replacement_rules`, column projection:
`ReadParquet(a, columns=b, filters=c)[d]` rewrites to
`ReadParquet(a, columns=_list_columns(d), filters=c)`. -/
def readParquetProjectionRule : Expr → Option Expr
  | .projection (.readParquet a _b c) d =>
      Option.some (.readParquet a (Option.some (listColumns1 d)) c)
  | _ => Option.none

/-- The six comparison classes iterated by the predicate-pushdown loop
(`for op in [LE, LT, GE, GT, EQ, NE]`). -/
inductive CmpOp where
  | le | lt | ge | gt | eq | ne
deriving DecidableEq

def CmpOp.toKind : CmpOp → BinKind
  | .le => .le
  | .lt => .lt
  | .ge => .ge
  | .gt => .gt
  | .eq => .eq
  | .ne => .ne

/-- Predicate pushdown, first variant: the predicate's left operand is a
single-column projection of a read of the same path, the right operand is
captured unconstrained.
`Filter(ReadParquet(a,b,c), op(ReadParquet(a,_,_)[d], e))` rewrites to
`ReadParquet(a, _list_columns(b), (c or []) + [(d, op._operator_repr, e)])`. -/
def pushdownProjLit (op : CmpOp) : Expr → Option Expr
  | .filter (.readParquet a b c)
      (.binop k (.projection (.readParquet a2 _ _) d) e) =>
      if k = op.toKind ∧ a2 = a then
        Option.some (.readParquet a (listColumns b)
          (.some (Filters.snoc (orEmpty c) d k.opRepr e)))
      else Option.none
  | _ => Option.none

/-- Predicate pushdown, second variant: the projection is the predicate's
right operand, so the recorded operator is flipped to keep the column first.
`Filter(ReadParquet(a,b,c), op(e, ReadParquet(a,_,_)[d]))` rewrites to
`ReadParquet(a, _list_columns(b), (c or []) + [(d, flip(op)._operator_repr, e)])`. -/
def pushdownLitProj (op : CmpOp) : Expr → Option Expr
  | .filter (.readParquet a b c)
      (.binop k e (.projection (.readParquet a2 _ _) d)) =>
      if k = op.toKind ∧ a2 = a then
        Option.some (.readParquet a (listColumns b)
          (.some (Filters.snoc (orEmpty c) d k.flipOp.opRepr e)))
      else Option.none
  | _ => Option.none

/-- Predicate pushdown, third variant: the predicate's left operand is a read
whose `columns` operand is constrained to be a plain string
(`CustomConstraint(lambda d: isinstance(d, str))`).
`Filter(ReadParquet(a,b,c), op(ReadParquet(a,d,_), e))` rewrites to
`ReadParquet(a, _list_columns(b), (c or []) + [(d, op._operator_repr, e)])`. -/
def pushdownColLit (op : CmpOp) : Expr → Option Expr
  | .filter (.readParquet a b c) (.binop k (.readParquet a2 d _) e) =>
      match d with
      | Option.some (.one s) =>
          if k = op.toKind ∧ a2 = a then
            Option.some (.readParquet a (listColumns b)
              (.some (Filters.snoc (orEmpty c) (.one s) k.opRepr e)))
          else Option.none
      | _ => Option.none
  | _ => Option.none

/-- Predicate pushdown, fourth variant: as the third, with the read on the
right of the comparison and the recorded operator flipped. -/
def pushdownLitCol (op : CmpOp) : Expr → Option Expr
  | .filter (.readParquet a b c) (.binop k e (.readParquet a2 d _)) =>
      match d with
      | Option.some (.one s) =>
          if k = op.toKind ∧ a2 = a then
            Option.some (.readParquet a (listColumns b)
              (.some (Filters.snoc (orEmpty c) (.one s) k.flipOp.opRepr e)))
          else Option.none
      | _ => Option.none
  | _ => Option.none

/-- `Add._replacement_rules`: `Add(x, x)` (both operands equal, matchpy
matches the repeated wildcard structurally) rewrites to `Mul(2, x)`. -/
def addSelfRule : Expr → Option Expr
  | .binop .add x y =>
      if x = y then Option.some (.binop .mul (.lit 2) x) else Option.none
  | _ => Option.none

/-- The `isinstance(side, Expr)` guard of `Binop`'s projection pushdown:
only expression-typed operands get the column subset applied. -/
def projIfExpr (x : Expr) (columns : ColSpec) : Expr :=
  match x with
  | .lit n => .lit n
  | e => .projection e columns

/-- `Binop._replacement_rules` (inherited by all ten binary classes):
`cls(left, right)[columns]` rewrites to `cls(left[columns], right[columns])`,
projecting only the expression-typed sides.  The source registers one such
rule per class; their patterns are disjoint across kinds, so one function
over the stored kind is equivalent. -/
def binopProjectionRule : Expr → Option Expr
  | .projection (.binop k left right) columns =>
      Option.some (.binop k (projIfExpr left columns) (projIfExpr right columns))
  | _ => Option.none

/-- `Mul._replacement_rules`: `Mul(a, Mul(b, c))` rewrites to `Mul(a*b, c)`
under the constraint that `a` and `b` are both plain numbers. -/
def mulConstantFoldRule : Expr → Option Expr
  | .binop .mul a (.binop .mul b c) =>
      match a, b with
      | .lit na, .lit nb => Option.some (.binop .mul (.lit (na * nb)) c)
      | _, _ => Option.none
  | _ => Option.none

/-- The full rule catalog (the global `replacement_rules` list once every
class has registered). -/
def replacementRules : List (Expr → Option Expr) :=
  [filterProjectionRule, readParquetProjectionRule,
   pushdownProjLit .le, pushdownLitProj .le, pushdownColLit .le, pushdownLitCol .le,
   pushdownProjLit .lt, pushdownLitProj .lt, pushdownColLit .lt, pushdownLitCol .lt,
   pushdownProjLit .ge, pushdownLitProj .ge, pushdownColLit .ge, pushdownLitCol .ge,
   pushdownProjLit .gt, pushdownLitProj .gt, pushdownColLit .gt, pushdownLitCol .gt,
   pushdownProjLit .eq, pushdownLitProj .eq, pushdownColLit .eq, pushdownLitCol .eq,
   pushdownProjLit .ne, pushdownLitProj .ne, pushdownColLit .ne, pushdownLitCol .ne,
   addSelfRule, binopProjectionRule, mulConstantFoldRule]

/-- Try each rule in catalog order at one position; first match wins. -/
def tryRules : List (Expr → Option Expr) → Expr → Option Expr
  | [], _ => Option.none
  | r :: rs, e =>
      match r e with
      | Option.some e2 => Option.some e2
      | Option.none => tryRules rs e

/-- One replacement of matchpy's `replace_all` strategy: find the first
position in preorder (root, then operands left to right, depth first) where
some rule matches, replace there, and return the whole rewritten tree.
matchpy iterates only over expression subterms, so plain-number operands and
the values stored inside a read's `filters` operand are not positions.  For a
node without expression operands the body collapses to trying the rules at
the root. -/
def step : Expr → Option Expr
  | .filter f p =>
      match tryRules replacementRules (.filter f p) with
      | Option.some e2 => Option.some e2
      | Option.none =>
          match step f with
          | Option.some f2 => Option.some (.filter f2 p)
          | Option.none =>
              match step p with
              | Option.some p2 => Option.some (.filter f p2)
              | Option.none => Option.none
  | .projection f c =>
      match tryRules replacementRules (.projection f c) with
      | Option.some e2 => Option.some e2
      | Option.none =>
          match step f with
          | Option.some f2 => Option.some (.projection f2 c)
          | Option.none => Option.none
  | .binop k l r =>
      match tryRules replacementRules (.binop k l r) with
      | Option.some e2 => Option.some e2
      | Option.none =>
          match step l with
          | Option.some l2 => Option.some (.binop k l2 r)
          | Option.none =>
              match step r with
              | Option.some r2 => Option.some (.binop k l r2)
              | Option.none => Option.none
  | e => tryRules replacementRules e

/-! ## Termination of the rewrite strategy

`W` is a weight on trees that every rule strictly decreases, and that is
strictly monotone in every expression position, so one `step` (a replacement
anywhere) strictly decreases it.  That makes `replace_all`'s loop — which in
the source runs with no iteration cap — terminating, with `W e` an upper
bound on the number of replacements. -/

def W : Expr → Nat
  | .filter f p => W f + W p + 1
  | .projection f _ => 2 * W f
  | .binop k l r => W l + W r + (if k = .add then 2 else 1)
  | _ => 1

/-! ## matchpy `replace_all`: iterate `step` to a fixed point -/

/-- Iterate single replacements, stopping when no rule matches anywhere;
the fuel argument only makes totality explicit — `W e` fuel always reaches
the fixed point. -/
def rewriteFuel : Nat → Expr → Expr
  | 0, e => e
  | n + 1, e =>
      match step e with
      | Option.none => e
      | Option.some e2 => rewriteFuel n e2

/-- `replace_all(expr, replacement_rules)`: rewrite until no rule matches. -/
def replaceAll (e : Expr) : Expr := rewriteFuel (W e) e

/-! ## The printed form (`Expr.__str__`) and the `optimize` fixed-point loop

The source's loop compares trees by their printed form:
`while str(expr) != str(last): last = expr; expr = replace_all(expr, ...)`
starting from `last = None` (printed `"None"`). -/

/-- Python `repr` of a string: surrounding quotes. -/
def pyQuote (s : String) : String := "\x27" ++ s ++ "\x27"

/-- Python `str`/`repr` of a list of strings (`repr` of each element). -/
def pyReprStrList (l : List String) : String :=
  "[" ++ String.intercalate ", " (l.map pyQuote) ++ "]"

/-- Python `repr()` of a columns value. -/
def ColSpec.pyRepr : ColSpec → String
  | .one s => pyQuote s
  | .many l => pyReprStrList l

/-- Python `str()` of a columns value (a bare string prints unquoted). -/
def ColSpec.pyStr : ColSpec → String
  | .one s => s
  | .many l => pyReprStrList l

/-- `" " in base`: whether a printed form contains a space (computed over the
character list so that it reduces definitionally). -/
def containsSpace (s : String) : Bool := s.data.any (fun c => c = ' ')

/-- The `columns=` fragment of `ReadParquet`'s generic `__str__`, omitted when
the operand equals the declared default `None`. -/
def colsPart : Option ColSpec → String
  | Option.none => ""
  | Option.some c => ", columns=" ++ c.pyStr

mutual
/-- `Expr.__str__` (also `__repr__`): `ReadParquet` and `Filter` use the
generic `"Kind(param=operand, ...)"` form that omits operands equal to the
kind's declared default; `Projection` prints `base[repr(columns)]`
parenthesising a base that contains a space; `Binop` prints infix with
`_operator_repr`; `from_pandas.__str__` is the constant `"df"`; a plain
number prints as its decimal form. -/
def Expr.pyStr : Expr → String
  | .readParquet p c f =>
      "ReadParquet(path=" ++ p ++ colsPart c ++ OFilters.filtersPart f ++ ")"
  | .filter f p =>
      "Filter(frame=" ++ Expr.pyStr f ++ ", predicate=" ++ Expr.pyStr p ++ ")"
  | .projection f c =>
      (let base := Expr.pyStr f
       if containsSpace base then "(" ++ base ++ ")" else base) ++
        "[" ++ c.pyRepr ++ "]"
  | .binop k l r => Expr.pyStr l ++ " " ++ k.opRepr ++ " " ++ Expr.pyStr r
  | .lit n => toString n
  | .fromPandas _ _ => "df"

/-- The `filters=` fragment of `ReadParquet`'s `__str__`, omitted when the
operand equals the declared default `None`. -/
def OFilters.filtersPart : OFilters → String
  | .none => ""
  | .some l => ", filters=[" ++ Filters.pyItems l ++ "]"

/-- The comma-separated `repr`s of the `(column, operator, value)` triples. -/
def Filters.pyItems : Filters → String
  | .nil => ""
  | .cons d o v rest =>
      "(" ++ d.pyRepr ++ ", " ++ pyQuote o ++ ", " ++ Expr.pyStr v ++ ")" ++
        (match rest with
         | .nil => ""
         | .cons _ _ _ _ => ", " ++ Filters.pyItems rest)
end

/-- `str(last)` where `last` may still be the initial Python `None`. -/
def printLast : Option Expr → String
  | Option.none => "None"
  | Option.some e => e.pyStr

/-- The fixed-point loop of `optimize`:
`while str(expr) != str(last): last = expr; expr = replace_all(expr)`.
The fuel only makes totality explicit; since `replaceAll` is internally a
fixed point, the loop always exits within three comparisons, so any fuel of
at least `3` computes the source's result. -/
def optimizeLoop : Nat → Option Expr → Expr → Expr
  | 0, _, e => e
  | n + 1, last, e =>
      if Expr.pyStr e = printLast last then e
      else optimizeLoop n (Option.some e) (replaceAll e)

/-- `optimize(expr)`: high level query optimization by fixed-point term
rewriting over the global rule catalog. -/
def optimize (e : Expr) : Expr := optimizeLoop (W e + 3) Option.none e

/-- Whether any `Filter` or `Projection` node occurs in a tree. -/
def hasFilterOrProjection : Expr → Bool
  | .filter _ _ => true
  | .projection _ _ => true
  | .binop _ l r => hasFilterOrProjection l || hasFilterOrProjection r
  | _ => false

/-! ## Equality modes and the `_defer_to_matchpy` flag -/

/-- The result of a rich-comparison call on an `Expr`: a boolean while the
engine is matching, a new comparison node otherwise. -/
inductive CmpResult where
  | node : Expr → CmpResult
  | bool : Bool → CmpResult
deriving DecidableEq

/-- `Expr.__eq__`: when `_defer_to_matchpy` is set (during optimization)
defer to matchpy's structural `Operation.__eq__`; otherwise construct
`EQ(other, self)` — note the reversed operand order of the source. -/
def dunderEq (deferToMatchpy : Bool) (self other : Expr) : CmpResult :=
  if deferToMatchpy then .bool (decide (self = other))
  else .node (.binop .eq other self)

/-- `Expr.__ne__`: structural disequality while optimizing, otherwise the
node `NE(other, self)`. -/
def dunderNe (deferToMatchpy : Bool) (self other : Expr) : CmpResult :=
  if deferToMatchpy then .bool (decide (self ≠ other))
  else .node (.binop .ne other self)

/-- The outcome of the rewrite loop inside `optimize`: a result tree, or an
exception raised by a rewrite rule (`RewriteFailure`). -/
inductive RunOutcome where
  | ok : Expr → RunOutcome
  | raised : String → RunOutcome
deriving DecidableEq

/-- The equality-mode discipline of `optimize` in the source:
`_defer_to_matchpy = True`, then `try: <loop> finally: _defer_to_matchpy =
False`.  The body is abstracted over the flag and may return or raise, so
both exit paths of the `try` are covered; the second component is the flag
value after the call returns. -/
def optimizeWithModeRestore (body : Bool → Expr → RunOutcome) (e : Expr) :
    RunOutcome × Bool :=
  let deferToMatchpy := true
  let result := body deferToMatchpy e
  (result, false)

/-! ## Node construction (`_ExprMeta.__call__`) and divisions -/

/-- Construction failures: `unexpectedOperand` is the source's
`assert not kwargs` firing on a leftover keyword; `missingOperand` is the
`KeyError` from `cls._defaults[parameter]` on a parameter without a declared
default. -/
inductive ConstructErr where
  | unexpectedOperand
  | missingOperand
deriving DecidableEq

/-- `kwargs.pop(parameter, ...)`: the removed value (if present) and the
remaining keyword mapping. -/
def popKw {α : Type} (k : String) : List (String × α) → Option α × List (String × α)
  | [] => (Option.none, [])
  | (k2, v) :: rest =>
      if k2 = k then (Option.some v, rest)
      else
        let r := popKw k rest
        (r.1, (k2, v) :: r.2)

/-- Keyword lookup without removal (the value `popKw` would return). -/
def lookupKw {α : Type} (k : String) : List (String × α) → Option α
  | [] => Option.none
  | (k2, v) :: rest => if k2 = k then Option.some v else lookupKw k rest

/-- The loop `for parameter in cls._parameters[len(operands):]:
operands.append(kwargs.pop(parameter, cls._defaults[parameter]))` followed
by `assert not kwargs`.  Python evaluates the fallback
`cls._defaults[parameter]` eagerly, before `pop` consults `kwargs`, so a
parameter without a declared default fails here even when the keyword was
supplied. -/
def fillOperands {α : Type} :
    List String → (String → Option α) → List (String × α) → List α →
      Except ConstructErr (List α)
  | [], _, kwargs, operands =>
      if kwargs.isEmpty then .ok operands else .error .unexpectedOperand
  | parameter :: ps, defaults, kwargs, operands =>
      match defaults parameter with
      | Option.none => .error .missingOperand
      | Option.some dflt =>
          match popKw parameter kwargs with
          | (Option.some v, kwargs2) =>
              fillOperands ps defaults kwargs2 (operands ++ [v])
          | (Option.none, kwargs2) =>
              fillOperands ps defaults kwargs2 (operands ++ [dflt])

/-- `_ExprMeta.__call__` (after the one-time rule registration): bind the
positional operands, fill every remaining declared parameter in declared
order, reject leftover keywords. -/
def construct {α : Type} (params : List String) (defaults : String → Option α)
    (args : List α) (kwargs : List (String × α)) : Except ConstructErr (List α) :=
  fillOperands (params.drop args.length) defaults kwargs args

/-- `ReadCSV._parameters` from core.py. -/
def readCSVParams : List String := ["filename", "usecols", "header"]

/-- `ReadCSV._defaults` from core.py (`usecols=None, header=None`), with the
operand values modelled as opaque strings. -/
def readCSVDefaults : String → Option String := fun parameter =>
  if parameter = "usecols" then Option.some "None"
  else if parameter = "header" then Option.some "None"
  else Option.none

/-! ## Divisions (`_divisions` of the modelled kinds) -/

/-- Divisions failures: `unaligned` is the `assert` in
`Blockwise._divisions` failing on operands with differing divisions;
`external` marks `ReadParquet._divisions`, which reads file statistics
outside this model; `noExprOperand` is the `IndexError` of
`[o for o in self.operands if isinstance(o, Expr)][0]` on a node without
expression operands. -/
inductive DivErr where
  | unaligned
  | external
  | noExprOperand
deriving DecidableEq

/-- `Expr.divisions` on the modelled kinds: `from_pandas` produces
`[None] * (npartitions + 1)`; `Projection` overrides `_divisions` to its
frame's divisions with no check; `Filter` and the `Binop` kinds inherit
`Blockwise._divisions`, which takes the first expression operand's
divisions after asserting that every expression operand's divisions agree
with it. -/
def divisionsE : Expr → Except DivErr (List (Option Int))
  | .fromPandas _ n => .ok (List.replicate (n + 1) Option.none)
  | .readParquet _ _ _ => .error .external
  | .projection f _ => divisionsE f
  | .filter f p => do
      let df ← divisionsE f
      let dp ← divisionsE p
      if dp = df then pure df else .error .unaligned
  | .binop _ l r =>
      if l.isNum then
        if r.isNum then .error .noExprOperand
        else divisionsE r
      else
        if r.isNum then divisionsE l
        else do
          let dl ← divisionsE l
          let dr ← divisionsE r
          if dr = dl then pure dl else .error .unaligned
  | .lit _ => .error .noExprOperand

/-! ## Task-graph compilation (`Expr.__dask_graph__`) -/

/-- The `Expr`-typed operands of a node in operand order — the operands
`__dask_graph__` pushes onto its traversal stack (plain values, including
numbers and the contents of a read's `filters` operand, are not
expressions). -/
def childrenE : Expr → List Expr
  | .filter f p => [f, p]
  | .projection f _ => [f]
  | .binop _ l r =>
      (if l.isNum then [] else [l]) ++ (if r.isNum then [] else [r])
  | _ => []

/-- Structural size used as the traversal's termination measure. -/
def esize : Expr → Nat
  | .filter f p => esize f + esize p + 1
  | .projection f _ => esize f + 1
  | .binop _ l r => esize l + esize r + 1
  | _ => 1

/-- Every node of a tree reachable through expression operands. -/
def subtermsE : Expr → List Expr
  | .filter f p => .filter f p :: (subtermsE f ++ subtermsE p)
  | .projection f c => .projection f c :: subtermsE f
  | .binop k l r =>
      .binop k l r ::
        ((if l.isNum then [] else subtermsE l) ++
         (if r.isNum then [] else subtermsE r))
  | e => [e]

/-- `Expr.__dask_graph__`'s traversal: a stack-based depth-first walk from
the root that skips nodes already seen and appends each newly seen node's
layer exactly once.  The source keys `seen` by `_name`, a content hash of
kind and operands, which the embedding identifies with the node value; the
source pops from the end of its Python-list stack and appends children in
operand order, which is this head-stack with the children pushed
reversed. -/
def dfsNodes : List Expr → List Expr → List Expr → List Expr
  | [], _, layers => layers
  | e :: stack, seen, layers =>
      if e ∈ seen then dfsNodes stack seen layers
      else dfsNodes ((childrenE e).reverse ++ stack) (e :: seen) (layers ++ [e])
termination_by stack _ _ => (stack.map esize).sum
decreasing_by
  · have h1 : 1 ≤ esize e := by cases e <;> simp only [esize] <;> omega
    simp only [List.map_cons, List.sum_cons]
    omega
  · have h1 : ((childrenE e).map esize).sum < esize e := by
      cases e with
      | filter f p => simp [childrenE, esize]
      | projection f c => simp [childrenE, esize]
      | binop k l r =>
          simp only [childrenE, esize]
          by_cases hl : l.isNum <;> by_cases hr : r.isNum <;>
            simp [hl, hr] <;> omega
      | readParquet a b c => simp [childrenE, esize]
      | lit n => simp [childrenE, esize]
      | fromPandas a b => simp [childrenE, esize]
    simp only [List.map_cons, List.sum_cons, List.map_append, List.sum_append,
      List.map_reverse, List.sum_reverse]
    omega

/-- The per-node layers collected by `__dask_graph__`, in visit order; the
task graph is the union of these layers. -/
def daskGraphNodes (root : Expr) : List Expr := dfsNodes [root] [] []

/-! ## Theorems -/

/-- One unconditional unfolding of `step`. -/
theorem step_eq (e : Expr) :
    step e =
      match tryRules replacementRules e with
      | Option.some e2 => Option.some e2
      | Option.none =>
          match e with
          | .filter f p =>
              match step f with
              | Option.some f2 => Option.some (.filter f2 p)
              | Option.none =>
                  match step p with
                  | Option.some p2 => Option.some (.filter f p2)
                  | Option.none => Option.none
          | .projection f c =>
              match step f with
              | Option.some f2 => Option.some (.projection f2 c)
              | Option.none => Option.none
          | .binop k l r =>
              match step l with
              | Option.some l2 => Option.some (.binop k l2 r)
              | Option.none =>
                  match step r with
                  | Option.some r2 => Option.some (.binop k l r2)
                  | Option.none => Option.none
          | _ => Option.none := by
  cases e with
  | filter f p => rfl
  | projection f c => rfl
  | binop k l r => rfl
  | readParquet a b c =>
      show tryRules replacementRules _ = _
      cases h : tryRules replacementRules (Expr.readParquet a b c) <;> simp [h]
  | lit n =>
      show tryRules replacementRules _ = _
      cases h : tryRules replacementRules (Expr.lit n) <;> simp [h]
  | fromPandas a b =>
      show tryRules replacementRules _ = _
      cases h : tryRules replacementRules (Expr.fromPandas a b) <;> simp [h]

theorem one_le_W : (e : Expr) → 1 ≤ W e
  | .readParquet _ _ _ => by simp [W]
  | .filter f p => by have := one_le_W f; simp only [W]; omega
  | .projection f _ => by have := one_le_W f; simp only [W]; omega
  | .binop k l r => by
      have := one_le_W l; have := one_le_W r
      simp only [W]; split <;> omega
  | .lit _ => by simp [W]
  | .fromPandas _ _ => by simp [W]

theorem filterProjectionRule_decreases (e e2 : Expr)
    (h : filterProjectionRule e = Option.some e2) : W e2 < W e := by
  unfold filterProjectionRule at h
  split at h
  · injection h with h2
    subst h2
    simp [W]; omega
  · exact Option.noConfusion h

theorem readParquetProjectionRule_decreases (e e2 : Expr)
    (h : readParquetProjectionRule e = Option.some e2) : W e2 < W e := by
  unfold readParquetProjectionRule at h
  split at h
  · injection h with h2
    subst h2
    simp [W]
  · exact Option.noConfusion h

theorem pushdownProjLit_decreases (op : CmpOp) (e e2 : Expr)
    (h : pushdownProjLit op e = Option.some e2) : W e2 < W e := by
  unfold pushdownProjLit at h
  split at h
  · split at h
    · injection h with h2
      subst h2
      simp [W]
    · exact Option.noConfusion h
  · exact Option.noConfusion h

theorem pushdownLitProj_decreases (op : CmpOp) (e e2 : Expr)
    (h : pushdownLitProj op e = Option.some e2) : W e2 < W e := by
  unfold pushdownLitProj at h
  split at h
  · split at h
    · injection h with h2
      subst h2
      simp [W]
    · exact Option.noConfusion h
  · exact Option.noConfusion h

theorem pushdownColLit_decreases (op : CmpOp) (e e2 : Expr)
    (h : pushdownColLit op e = Option.some e2) : W e2 < W e := by
  unfold pushdownColLit at h
  split at h
  · split at h
    · split at h
      · injection h with h2
        subst h2
        simp [W]
      · exact Option.noConfusion h
    · exact Option.noConfusion h
  · exact Option.noConfusion h

theorem pushdownLitCol_decreases (op : CmpOp) (e e2 : Expr)
    (h : pushdownLitCol op e = Option.some e2) : W e2 < W e := by
  unfold pushdownLitCol at h
  split at h
  · split at h
    · split at h
      · injection h with h2
        subst h2
        simp [W]
      · exact Option.noConfusion h
    · exact Option.noConfusion h
  · exact Option.noConfusion h

theorem addSelfRule_decreases (e e2 : Expr)
    (h : addSelfRule e = Option.some e2) : W e2 < W e := by
  unfold addSelfRule at h
  split at h
  · rename_i x y
    split at h
    · rename_i hxy
      subst hxy
      injection h with h2
      subst h2
      have := one_le_W x
      simp [W]
      omega
    · exact Option.noConfusion h
  · exact Option.noConfusion h

theorem W_projIfExpr_le (x : Expr) (columns : ColSpec) :
    W (projIfExpr x columns) ≤ 2 * W x := by
  cases x <;> simp [projIfExpr, W] <;> omega

theorem binopProjectionRule_decreases (e e2 : Expr)
    (h : binopProjectionRule e = Option.some e2) : W e2 < W e := by
  unfold binopProjectionRule at h
  split at h
  · rename_i k left right columns
    injection h with h2
    subst h2
    have hl := W_projIfExpr_le left columns
    have hr := W_projIfExpr_le right columns
    simp only [W]
    split <;> omega
  · exact Option.noConfusion h

theorem mulConstantFoldRule_decreases (e e2 : Expr)
    (h : mulConstantFoldRule e = Option.some e2) : W e2 < W e := by
  unfold mulConstantFoldRule at h
  split at h
  · split at h
    · injection h with h2
      subst h2
      simp [W]
      omega
    · exact Option.noConfusion h
  · exact Option.noConfusion h

theorem tryRules_decreases :
    ∀ (rs : List (Expr → Option Expr)),
      (∀ r ∈ rs, ∀ e e2, r e = Option.some e2 → W e2 < W e) →
      ∀ e e2, tryRules rs e = Option.some e2 → W e2 < W e := by
  intro rs
  induction rs with
  | nil => intro _ e e2 h; simp [tryRules] at h
  | cons r rs ih =>
      intro hall e e2 h
      unfold tryRules at h
      cases hre : r e with
      | some e3 =>
          rw [hre] at h
          injection h with h2
          subst h2
          exact hall r (List.mem_cons_self r rs) e e3 hre
      | none =>
          rw [hre] at h
          exact ih (fun r2 hr2 => hall r2 (List.mem_cons_of_mem r hr2)) e e2 h

theorem replacementRules_decrease :
    ∀ r ∈ replacementRules, ∀ e e2, r e = Option.some e2 → W e2 < W e := by
  intro r hr
  simp only [replacementRules, List.mem_cons, List.not_mem_nil, or_false] at hr
  rcases hr with h | h | h | h | h | h | h | h | h | h | h | h | h | h | h | h |
    h | h | h | h | h | h | h | h | h | h | h | h | h <;> subst h
  · exact filterProjectionRule_decreases
  · exact readParquetProjectionRule_decreases
  · exact pushdownProjLit_decreases _
  · exact pushdownLitProj_decreases _
  · exact pushdownColLit_decreases _
  · exact pushdownLitCol_decreases _
  · exact pushdownProjLit_decreases _
  · exact pushdownLitProj_decreases _
  · exact pushdownColLit_decreases _
  · exact pushdownLitCol_decreases _
  · exact pushdownProjLit_decreases _
  · exact pushdownLitProj_decreases _
  · exact pushdownColLit_decreases _
  · exact pushdownLitCol_decreases _
  · exact pushdownProjLit_decreases _
  · exact pushdownLitProj_decreases _
  · exact pushdownColLit_decreases _
  · exact pushdownLitCol_decreases _
  · exact pushdownProjLit_decreases _
  · exact pushdownLitProj_decreases _
  · exact pushdownColLit_decreases _
  · exact pushdownLitCol_decreases _
  · exact pushdownProjLit_decreases _
  · exact pushdownLitProj_decreases _
  · exact pushdownColLit_decreases _
  · exact pushdownLitCol_decreases _
  · exact addSelfRule_decreases
  · exact binopProjectionRule_decreases
  · exact mulConstantFoldRule_decreases

theorem step_decreases_aux :
    ∀ (n : Nat) (e e2 : Expr), W e ≤ n → step e = Option.some e2 → W e2 < W e := by
  intro n
  induction n with
  | zero =>
      intro e e2 hle _
      have := one_le_W e
      omega
  | succ n ih =>
      intro e e2 hle h
      rw [step_eq] at h
      cases htr : tryRules replacementRules e with
      | some e3 =>
          rw [htr] at h
          dsimp only at h
          injection h with h2
          subst h2
          exact tryRules_decreases replacementRules replacementRules_decrease e e3 htr
      | none =>
          rw [htr] at h
          dsimp only at h
          cases e with
          | filter f p =>
              have hWf := one_le_W f
              have hWp := one_le_W p
              dsimp only at h
              cases hsf : step f with
              | some f2 =>
                  rw [hsf] at h
                  dsimp only at h
                  injection h with h2
                  subst h2
                  have := ih f f2 (by simp only [W] at hle ⊢; omega) hsf
                  simp only [W]; omega
              | none =>
                  rw [hsf] at h
                  dsimp only at h
                  cases hsp : step p with
                  | some p2 =>
                      rw [hsp] at h
                      dsimp only at h
                      injection h with h2
                      subst h2
                      have := ih p p2 (by simp only [W] at hle ⊢; omega) hsp
                      simp only [W]; omega
                  | none => rw [hsp] at h; exact Option.noConfusion h
          | projection f c =>
              have hWf := one_le_W f
              dsimp only at h
              cases hsf : step f with
              | some f2 =>
                  rw [hsf] at h
                  dsimp only at h
                  injection h with h2
                  subst h2
                  have := ih f f2 (by simp only [W] at hle ⊢; omega) hsf
                  simp only [W]; omega
              | none => rw [hsf] at h; exact Option.noConfusion h
          | binop k l r =>
              have hWl := one_le_W l
              have hWr := one_le_W r
              have hk : 1 ≤ (if k = BinKind.add then 2 else 1) := by split <;> omega
              dsimp only at h
              cases hsl : step l with
              | some l2 =>
                  rw [hsl] at h
                  dsimp only at h
                  injection h with h2
                  subst h2
                  have := ih l l2 (by simp only [W] at hle ⊢; omega) hsl
                  simp only [W]; omega
              | none =>
                  rw [hsl] at h
                  dsimp only at h
                  cases hsr : step r with
                  | some r2 =>
                      rw [hsr] at h
                      dsimp only at h
                      injection h with h2
                      subst h2
                      have := ih r r2 (by simp only [W] at hle ⊢; omega) hsr
                      simp only [W]; omega
                  | none => rw [hsr] at h; exact Option.noConfusion h
          | readParquet a b c => exact Option.noConfusion h
          | lit n2 => exact Option.noConfusion h
          | fromPandas a b => exact Option.noConfusion h

theorem step_decreases (e e2 : Expr) (h : step e = Option.some e2) : W e2 < W e :=
  step_decreases_aux (W e) e e2 le_rfl h

theorem rewriteFuel_succ (n : Nat) (e : Expr) :
    rewriteFuel (n + 1) e =
      match step e with
      | Option.none => e
      | Option.some e2 => rewriteFuel n e2 := rfl

theorem rewriteFuel_of_normal (e : Expr) (h : step e = Option.none) :
    ∀ n, rewriteFuel n e = e := by
  intro n
  cases n with
  | zero => rfl
  | succ n => unfold rewriteFuel; rw [h]

theorem step_rewriteFuel_none :
    ∀ (n : Nat) (e : Expr), W e ≤ n → step (rewriteFuel n e) = Option.none := by
  intro n
  induction n with
  | zero =>
      intro e hle
      have := one_le_W e
      omega
  | succ n ih =>
      intro e hle
      unfold rewriteFuel
      cases hs : step e with
      | none => exact hs
      | some e2 =>
          have := step_decreases e e2 hs
          exact ih e2 (by omega)

theorem rewriteFuel_fuel_irrel :
    ∀ (n m : Nat) (e : Expr), W e ≤ n → W e ≤ m → rewriteFuel n e = rewriteFuel m e := by
  intro n
  induction n with
  | zero =>
      intro m e hn _
      have := one_le_W e
      omega
  | succ n ih =>
      intro m e hn hm
      cases m with
      | zero =>
          have := one_le_W e
          omega
      | succ m =>
          unfold rewriteFuel
          cases hs : step e with
          | none => rfl
          | some e2 =>
              have := step_decreases e e2 hs
              exact ih m e2 (by omega) (by omega)

theorem replaceAll_of_normal (e : Expr) (h : step e = Option.none) :
    replaceAll e = e :=
  rewriteFuel_of_normal e h (W e)

theorem step_replaceAll_none (e : Expr) : step (replaceAll e) = Option.none :=
  step_rewriteFuel_none (W e) e le_rfl

theorem replaceAll_step (e e2 : Expr) (h : step e = Option.some e2) :
    replaceAll e = replaceAll e2 := by
  have h1 := one_le_W e
  have h2 := step_decreases e e2 h
  obtain ⟨k, hk⟩ : ∃ k, W e = k + 1 := ⟨W e - 1, by omega⟩
  show rewriteFuel (W e) e = rewriteFuel (W e2) e2
  rw [hk, rewriteFuel_succ, h]
  exact rewriteFuel_fuel_irrel k (W e2) e2 (by omega) le_rfl

theorem replaceAll_idem (e : Expr) : replaceAll (replaceAll e) = replaceAll e :=
  replaceAll_of_normal (replaceAll e) (step_replaceAll_none e)

theorem optimizeLoop_succ (n : Nat) (last : Option Expr) (e : Expr) :
    optimizeLoop (n + 1) last e =
      if Expr.pyStr e = printLast last then e
      else optimizeLoop n (Option.some e) (replaceAll e) := rfl

theorem optimizeLoop_ge3 (n : Nat) (last : Option Expr) (e : Expr) (h3 : 3 ≤ n) :
    optimizeLoop n last e =
      if Expr.pyStr e = printLast last then e else replaceAll e := by
  obtain ⟨m, rfl⟩ : ∃ m, n = m + 3 := ⟨n - 3, by omega⟩
  rw [show m + 3 = (m + 2) + 1 from rfl, optimizeLoop_succ]
  split
  · rfl
  · rw [show m + 2 = (m + 1) + 1 from rfl, optimizeLoop_succ]
    split
    · rfl
    · rw [replaceAll_idem, optimizeLoop_succ]
      split
      · rfl
      · rename_i hne
        exact absurd rfl hne

theorem optimize_eq_replaceAll (e : Expr) (h : Expr.pyStr e ≠ "None") :
    optimize e = replaceAll e := by
  unfold optimize
  rw [optimizeLoop_ge3 _ _ _ (by omega)]
  simp [printLast, h]

theorem optimize_of_print_none (e : Expr) (h : Expr.pyStr e = "None") :
    optimize e = e := by
  unfold optimize
  rw [optimizeLoop_ge3 _ _ _ (by omega)]
  simp [printLast, h]

theorem pyStr_filter_ne_none (f p : Expr) :
    Expr.pyStr (.filter f p) ≠ "None" := by
  intro h
  rw [show Expr.pyStr (.filter f p) =
    "Filter(frame=" ++ (Expr.pyStr f ++ ", predicate=" ++ Expr.pyStr p ++ ")")
    from by simp [Expr.pyStr, String.append_assoc]] at h
  have h2 := congrArg String.data h
  rw [String.data_append] at h2
  have h3 : ("Filter(frame=".data) =
      ['F','i','l','t','e','r','(','f','r','a','m','e','='] := rfl
  rw [h3] at h2
  simp at h2

theorem pyStr_readParquet_ne_none (p : String) (c : Option ColSpec) (f : OFilters) :
    Expr.pyStr (.readParquet p c f) ≠ "None" := by
  intro h
  rw [show Expr.pyStr (.readParquet p c f) =
    "ReadParquet(path=" ++ (p ++ colsPart c ++ OFilters.filtersPart f ++ ")")
    from by simp [Expr.pyStr, String.append_assoc]] at h
  have h2 := congrArg String.data h
  rw [String.data_append] at h2
  have h3 : ("ReadParquet(path=".data) =
      ['R','e','a','d','P','a','r','q','u','e','t','(','p','a','t','h','='] := rfl
  rw [h3] at h2
  simp at h2

theorem pyStr_binop_ne_none (k : BinKind) (l r : Expr) :
    Expr.pyStr (.binop k l r) ≠ "None" := by
  intro h
  have h2 := congrArg String.data h
  rw [show Expr.pyStr (.binop k l r) =
    Expr.pyStr l ++ " " ++ k.opRepr ++ " " ++ Expr.pyStr r from rfl] at h2
  simp only [String.data_append] at h2
  have hmem : ' ' ∈ (['N','o','n','e'] : List Char) := by
    rw [← h2]
    simp
  simp at hmem

theorem pyStr_projection_ne_none (f : Expr) (c : ColSpec) :
    Expr.pyStr (.projection f c) ≠ "None" := by
  intro h
  have h2 := congrArg String.data h
  rw [show Expr.pyStr (.projection f c) =
    ((let base := Expr.pyStr f
      if containsSpace base then "(" ++ base ++ ")" else base) ++
       "[" ++ c.pyRepr ++ "]") from rfl] at h2
  simp only [String.data_append] at h2
  have hmem : ']' ∈ (['N','o','n','e'] : List Char) := by
    rw [← h2]
    simp
  simp at hmem

/-- `optimize` on a tree whose root prints distinguishably reduces to the
internal `replace_all` fixed point, and one leading replacement can be
peeled off. -/
theorem optimize_step_binop (k : BinKind) (l r : Expr) (e2 : Expr)
    (h : step (.binop k l r) = Option.some e2) (h2 : Expr.pyStr e2 ≠ "None") :
    optimize (.binop k l r) = optimize e2 := by
  rw [optimize_eq_replaceAll _ (pyStr_binop_ne_none k l r),
      optimize_eq_replaceAll _ h2]
  exact replaceAll_step _ _ h

/-! ## Firing and missing lemmas for symbolic rule evaluation -/

theorem pushdownProjLit_fires (op : CmpOp) (a : String) (b : Option ColSpec)
    (c : OFilters) (b2 : Option ColSpec) (c2 : OFilters) (d : ColSpec) (e : Expr) :
    pushdownProjLit op (.filter (.readParquet a b c)
        (.binop op.toKind (.projection (.readParquet a b2 c2) d) e)) =
      Option.some (.readParquet a (listColumns b)
        (.some (Filters.snoc (orEmpty c) d op.toKind.opRepr e))) := by
  simp [pushdownProjLit]

theorem pushdownLitProj_fires (op : CmpOp) (a : String) (b : Option ColSpec)
    (c : OFilters) (b2 : Option ColSpec) (c2 : OFilters) (d : ColSpec) (e : Expr) :
    pushdownLitProj op (.filter (.readParquet a b c)
        (.binop op.toKind e (.projection (.readParquet a b2 c2) d))) =
      Option.some (.readParquet a (listColumns b)
        (.some (Filters.snoc (orEmpty c) d op.toKind.flipOp.opRepr e))) := by
  simp [pushdownLitProj]

/-- Claim C3: `optimize` is idempotent — `optimize (optimize T)` is
structurally identical to `optimize T` for every expression tree `T`.  The
loop stops exactly when a pass leaves the printed form unchanged, and since
`replace_all` internally reaches a rule-free tree, the returned tree is a
fixed point of the rewrite pass. -/
theorem optimize_idempotent (T : Expr) : optimize (optimize T) = optimize T := by
  by_cases h : Expr.pyStr T = "None"
  · rw [optimize_of_print_none T h]
    exact optimize_of_print_none T h
  · rw [optimize_eq_replaceAll T h]
    by_cases h2 : Expr.pyStr (replaceAll T) = "None"
    · exact optimize_of_print_none _ h2
    · rw [optimize_eq_replaceAll _ h2, replaceAll_idem]

/-- Claim C6: the `Add` rule rewrites `X + X` (both operands the same
sub-expression) into `2 * X`, so `optimize (X + X) = optimize (2 * X)` for
every sub-expression `X`. -/
theorem optimize_add_self (X : Expr) :
    optimize (.binop .add X X) = optimize (.binop .mul (.lit 2) X) := by
  have htr : tryRules replacementRules (.binop .add X X) =
      Option.some (.binop .mul (.lit 2) X) := by
    simp [tryRules, replacementRules, filterProjectionRule, readParquetProjectionRule,
          pushdownProjLit, pushdownLitProj, pushdownColLit, pushdownLitCol,
          addSelfRule, binopProjectionRule, mulConstantFoldRule]
  have hs : step (.binop .add X X) = Option.some (.binop .mul (.lit 2) X) := by
    rw [step_eq, htr]
  rw [optimize_eq_replaceAll _ (pyStr_binop_ne_none _ _ _),
      optimize_eq_replaceAll _ (pyStr_binop_ne_none _ _ _)]
  exact replaceAll_step _ _ hs

/-- Claim C1: end-to-end pushdown — starting from a `ReadParquet` leaf with
`columns=None` and `filters=None`, `optimize(read[read["x"] > 5][["y"]])`
returns the single `ReadParquet` node with `columns=["y"]` and
`filters=[("x", ">", 5)]`, and the optimized tree has no `Filter` and no
`Projection` node. -/
theorem optimize_end_to_end_pushdown (p : String) :
    optimize
        (.projection
          (.filter (.readParquet p Option.none .none)
            (.binop .gt
              (.projection (.readParquet p Option.none .none) (.one "x"))
              (.lit 5)))
          (.many ["y"])) =
      .readParquet p (Option.some (.many ["y"]))
        (.some (.cons (.one "x") ">" (.lit 5) .nil)) ∧
    hasFilterOrProjection
        (optimize
          (.projection
            (.filter (.readParquet p Option.none .none)
              (.binop .gt
                (.projection (.readParquet p Option.none .none) (.one "x"))
                (.lit 5)))
            (.many ["y"]))) = false := by
  have hopt :
      optimize
          (.projection
            (.filter (.readParquet p Option.none .none)
              (.binop .gt
                (.projection (.readParquet p Option.none .none) (.one "x"))
                (.lit 5)))
            (.many ["y"])) =
        .readParquet p (Option.some (.many ["y"]))
          (.some (.cons (.one "x") ">" (.lit 5) .nil)) := by
    rw [optimize_eq_replaceAll _ (pyStr_projection_ne_none _ _)]
    refine Eq.trans (replaceAll_step _ _ rfl) ?_
    refine Eq.trans (replaceAll_step _ _ rfl) ?_
    refine Eq.trans (replaceAll_step _ _ ?_) (replaceAll_of_normal _ rfl)
    rw [step_eq]
    simp [tryRules, replacementRules, filterProjectionRule, readParquetProjectionRule,
          pushdownProjLit, pushdownLitProj, pushdownColLit, pushdownLitCol,
          CmpOp.toKind, BinKind.opRepr, listColumns, listColumns1, orEmpty,
          Filters.snoc]
  exact ⟨hopt, by rw [hopt]; rfl⟩

/-- Claim C2: predicate pushdown with operator flip — for each of the six
comparison kinds and both operand orders, a `Filter` of a read whose
predicate compares a column projection of a read of the same path against a
literal optimizes to one `ReadParquet` whose filter list is the original
list (empty when `None`) with `(column, operator-symbol, literal)` appended;
with the literal on the left the recorded symbol is the flipped one. -/
theorem optimize_predicate_pushdown (op : CmpOp) (p : String)
    (b b2 : Option ColSpec) (c c2 : OFilters) (d : ColSpec) (n : Int) :
    optimize (.filter (.readParquet p b c)
        (.binop op.toKind (.projection (.readParquet p b2 c2) d) (.lit n))) =
      .readParquet p (listColumns b)
        (.some (Filters.snoc (orEmpty c) d op.toKind.opRepr (.lit n))) ∧
    optimize (.filter (.readParquet p b c)
        (.binop op.toKind (.lit n) (.projection (.readParquet p b2 c2) d))) =
      .readParquet p (listColumns b)
        (.some (Filters.snoc (orEmpty c) d op.toKind.flipOp.opRepr (.lit n))) := by
  constructor <;> cases op <;>
  · rw [optimize_eq_replaceAll _ (pyStr_filter_ne_none _ _)]
    refine Eq.trans (replaceAll_step _ _ ?_) (replaceAll_of_normal _ rfl)
    rw [step_eq]
    simp [tryRules, replacementRules, filterProjectionRule, readParquetProjectionRule,
          pushdownProjLit, pushdownLitProj, pushdownColLit, pushdownLitCol,
          CmpOp.toKind, BinKind.opRepr, BinKind.flipOp]

/-- If `X` is not a number, `X` and `Y` are rule-free, and `Y` is not itself
a product with a numeric left factor, then no rule fires anywhere on
`X * (4 * Y)`. -/
theorem step_mul_nonnum_none (X Y : Expr) (hXnum : X.isNum = false)
    (hXnorm : step X = Option.none) (hYnorm : step Y = Option.none)
    (hYshape : ∀ (b : Int) (c : Expr), Y ≠ .binop .mul (.lit b) c) :
    step (.binop .mul X (.binop .mul (.lit 4) Y)) = Option.none := by
  have htr4 : tryRules replacementRules (.binop .mul (.lit 4) Y) =
      Option.none := by
    cases Y with
    | binop k l r =>
        cases k with
        | mul =>
            cases l with
            | lit b => exact absurd rfl (hYshape b r)
            | readParquet a b2 c2 => rfl
            | filter f pp => rfl
            | projection f cc => rfl
            | binop k2 l2 r2 => rfl
            | fromPandas s m => rfl
        | add => rfl
        | sub => rfl
        | div => rfl
        | lt => rfl
        | le => rfl
        | gt => rfl
        | ge => rfl
        | eq => rfl
        | ne => rfl
    | readParquet a b2 c2 => rfl
    | filter f pp => rfl
    | projection f cc => rfl
    | lit m => rfl
    | fromPandas s m => rfl
  have hs4 : step (.binop .mul (.lit 4) Y) = Option.none := by
    rw [step_eq, htr4]
    dsimp only
    rw [show step (Expr.lit 4) = Option.none from rfl]
    dsimp only
    rw [hYnorm]
  have htrRoot : tryRules replacementRules
      (.binop .mul X (.binop .mul (.lit 4) Y)) = Option.none := by
    cases X with
    | lit m => simp [Expr.isNum] at hXnum
    | readParquet a b2 c2 => rfl
    | filter f pp => rfl
    | projection f cc => rfl
    | binop k2 l2 r2 => rfl
    | fromPandas s m => rfl
  rw [step_eq, htrRoot]
  dsimp only
  rw [hXnorm]
  dsimp only
  rw [hs4]

/-- Claim C5 (amended): the `Mul` rule rewrites `a * (b * c)` into
`(a*b) * c` exactly when `a` and `b` are plain numeric literals, and
`optimize (3 * (4 * X)) = optimize (12 * X)` for every `X`; the tree
`X * (4 * Y)` with non-numeric `X`, `Y` is left unchanged provided `X` and
`Y` contain no redex themselves and `Y` is not itself a product with a
numeric left factor (otherwise the rule fires inside, see the
counterexample). -/
theorem mul_constant_fold_claim (X Y : Expr)
    (hXnum : X.isNum = false) (hYnum : Y.isNum = false)
    (hXnorm : step X = Option.none) (hYnorm : step Y = Option.none)
    (hYshape : ∀ (b : Int) (c : Expr), Y ≠ .binop .mul (.lit b) c) :
    (∀ (na nb : Int) (c : Expr),
        mulConstantFoldRule (.binop .mul (.lit na) (.binop .mul (.lit nb) c)) =
          Option.some (.binop .mul (.lit (na * nb)) c)) ∧
    (∀ (a b c : Expr), ¬(a.isNum = true ∧ b.isNum = true) →
        mulConstantFoldRule (.binop .mul a (.binop .mul b c)) = Option.none) ∧
    (∀ (Z : Expr),
        optimize (.binop .mul (.lit 3) (.binop .mul (.lit 4) Z)) =
          optimize (.binop .mul (.lit 12) Z)) ∧
    optimize (.binop .mul X (.binop .mul (.lit 4) Y)) =
      .binop .mul X (.binop .mul (.lit 4) Y) := by
  refine ⟨?_, ?_, ?_, ?_⟩
  · intro na nb c
    rfl
  · intro a b c h
    cases a <;> cases b <;> simp_all [mulConstantFoldRule, Expr.isNum]
  · intro Z
    have hs : step (.binop .mul (.lit 3) (.binop .mul (.lit 4) Z)) =
        Option.some (.binop .mul (.lit 12) Z) := rfl
    rw [optimize_eq_replaceAll _ (pyStr_binop_ne_none _ _ _),
        optimize_eq_replaceAll _ (pyStr_binop_ne_none _ _ _)]
    exact replaceAll_step _ _ hs
  · rw [optimize_eq_replaceAll _ (pyStr_binop_ne_none _ _ _)]
    exact replaceAll_of_normal _
      (step_mul_nonnum_none X Y hXnum hXnorm hYnorm hYshape)

/-- Claim C5 counterexample: with the non-numeric expressions `X = df` and
`Y = 5 * df`, `optimize (X * (4 * Y))` does not leave the tree unchanged —
the numeric factors `4` and `5` nested inside fold to `20`. -/
theorem mul_constant_fold_counterexample :
    Expr.isNum (.fromPandas "df" 1) = false ∧
    Expr.isNum (.binop .mul (.lit 5) (.fromPandas "df" 1)) = false ∧
    optimize (.binop .mul (.fromPandas "df" 1)
        (.binop .mul (.lit 4) (.binop .mul (.lit 5) (.fromPandas "df" 1)))) ≠
      .binop .mul (.fromPandas "df" 1)
        (.binop .mul (.lit 4) (.binop .mul (.lit 5) (.fromPandas "df" 1))) := by
  refine ⟨rfl, rfl, ?_⟩
  decide

/-- Witness for the amended claim C5 at `X = df`, `Y = df2`. -/
theorem mul_constant_fold_claim_witness :
    optimize (.binop .mul (.fromPandas "df" 1)
        (.binop .mul (.lit 4) (.fromPandas "df2" 2))) =
      .binop .mul (.fromPandas "df" 1)
        (.binop .mul (.lit 4) (.fromPandas "df2" 2)) :=
  (mul_constant_fold_claim (.fromPandas "df" 1) (.fromPandas "df2" 2) rfl rfl rfl rfl
    (fun _ _ h => Expr.noConfusion h)).2.2.2

/-- Claim C10: outside of optimization the user-facing `==` and `!=`
construct the comparison node with the operands reversed — `e == x` yields
`EQ(x, e)` and `e != x` yields `NE(x, e)` — while with `_defer_to_matchpy`
set the same operators perform structural comparison instead. -/
theorem dunder_eq_reverses_operands (e x : Expr) :
    dunderEq false e x = .node (.binop .eq x e) ∧
    dunderNe false e x = .node (.binop .ne x e) ∧
    dunderEq true e x = .bool (decide (e = x)) ∧
    dunderNe true e x = .bool (decide (e ≠ x)) :=
  ⟨rfl, rfl, rfl, rfl⟩

/-- Claim C7: `optimize` restores the user-facing equality mode on every
exit path — the flag after the call is `false` whatever the rewrite body
does (return or raise), and on the normal path the result is the rewrite
loop's result. -/
theorem optimize_restores_equality_mode (body : Bool → Expr → RunOutcome) (e : Expr) :
    (optimizeWithModeRestore body e).2 = false ∧
    (optimizeWithModeRestore (fun _ x => .ok (optimize x)) e).1 = .ok (optimize e) :=
  ⟨rfl, rfl⟩

theorem popKw_fst {α : Type} (k : String) :
    ∀ (l : List (String × α)), (popKw k l).1 = lookupKw k l := by
  intro l
  induction l with
  | nil => rfl
  | cons h rest ih =>
      obtain ⟨k2, v⟩ := h
      by_cases hk : k2 = k <;> simp [popKw, lookupKw, hk, ih]

theorem popKw_keys {α : Type} (k : String) :
    ∀ (l : List (String × α)),
      (popKw k l).2.map Prod.fst = (l.map Prod.fst).erase k := by
  intro l
  induction l with
  | nil => rfl
  | cons h rest ih =>
      obtain ⟨k2, v⟩ := h
      by_cases hk : k2 = k
      · subst hk
        simp [popKw, List.erase_cons]
      · simp [popKw, hk, List.erase_cons, ih]

theorem popKw_of_lookup_none {α : Type} (k : String) :
    ∀ (l : List (String × α)), lookupKw k l = Option.none → (popKw k l).2 = l := by
  intro l
  induction l with
  | nil => intro _; rfl
  | cons h rest ih =>
      obtain ⟨k2, v⟩ := h
      intro hl
      by_cases hk : k2 = k
      · simp [lookupKw, hk] at hl
      · simp [lookupKw, hk] at hl
        simp [popKw, hk, ih hl]

theorem lookupKw_none_iff {α : Type} (k : String) :
    ∀ (l : List (String × α)),
      lookupKw k l = Option.none ↔ k ∉ l.map Prod.fst := by
  intro l
  induction l with
  | nil => simp [lookupKw]
  | cons h rest ih =>
      obtain ⟨k2, v⟩ := h
      by_cases hk : k2 = k
      · subst hk
        simp [lookupKw]
      · simp [lookupKw, hk, ih]
        intro h2
        exact fun h3 => hk h3.symm

theorem lookupKw_popKw_ne {α : Type} (q p2 : String) (hqp : q ≠ p2) :
    ∀ (l : List (String × α)), lookupKw q (popKw p2 l).2 = lookupKw q l := by
  intro l
  induction l with
  | nil => rfl
  | cons h rest ih =>
      obtain ⟨k2, v⟩ := h
      by_cases hk : k2 = p2
      · subst hk
        have hne : ¬(k2 = q) := fun h2 => hqp h2.symm
        simp [popKw, lookupKw, hne]
      · simp only [popKw, hk, if_false, ite_false]
        by_cases hq : k2 = q
        · simp [popKw, hk, lookupKw, hq]
        · simp [popKw, hk, lookupKw, hq, ih]

theorem fillOperands_ok {α : Type} :
    ∀ (ps : List String) (defaults : String → Option α) (df : String → α)
      (kwargs : List (String × α)) (operands : List α),
      (∀ p2 ∈ ps, defaults p2 = Option.some (df p2)) →
      ps.Nodup →
      (kwargs.map Prod.fst).Nodup →
      (∀ k2 ∈ kwargs.map Prod.fst, k2 ∈ ps) →
      fillOperands ps defaults kwargs operands =
        .ok (operands ++ ps.map (fun p2 => (lookupKw p2 kwargs).getD (df p2))) := by
  intro ps
  induction ps with
  | nil =>
      intro defaults df kwargs operands _ _ _ hsub
      have hkw : kwargs = [] := by
        cases kwargs with
        | nil => rfl
        | cons h rest => exact absurd (hsub h.1 (by simp)) (by simp)
      subst hkw
      simp [fillOperands]
  | cons p2 ps ih =>
      intro defaults df kwargs operands hdf hnd hknd hsub
      have hd := hdf p2 (by simp)
      have hpnd : ps.Nodup := (List.nodup_cons.mp hnd).2
      have hpnotin : p2 ∉ ps := (List.nodup_cons.mp hnd).1
      obtain ⟨o, kwargs2, hpop⟩ :
          ∃ o kwargs2, popKw p2 kwargs = (o, kwargs2) :=
        ⟨(popKw p2 kwargs).1, (popKw p2 kwargs).2, rfl⟩
      have hkeys2 : kwargs2.map Prod.fst = (kwargs.map Prod.fst).erase p2 := by
        have h2 := popKw_keys p2 kwargs
        rw [hpop] at h2
        exact h2
      unfold fillOperands
      rw [hd, hpop]
      dsimp only
      cases hl : lookupKw p2 kwargs with
      | some v =>
          have hfst : o = Option.some v := by
            have h2 := popKw_fst p2 kwargs
            rw [hpop, hl] at h2
            exact h2
          subst hfst
          dsimp only
          rw [ih defaults df kwargs2 (operands ++ [v])
            (fun q hq => hdf q (by simp [hq]))
            hpnd
            (by rw [hkeys2]; exact hknd.erase p2)
            (by
              intro k2 hk2
              rw [hkeys2] at hk2
              have hne : k2 ≠ p2 := ((List.Nodup.mem_erase_iff hknd).mp hk2).1
              have hmem : k2 ∈ kwargs.map Prod.fst :=
                ((List.Nodup.mem_erase_iff hknd).mp hk2).2
              have h3 := hsub k2 hmem
              simp at h3
              exact h3.resolve_left hne)]
          have hcong :
              ps.map (fun q => (lookupKw q kwargs2).getD (df q)) =
                ps.map (fun q => (lookupKw q kwargs).getD (df q)) := by
            apply List.map_congr_left
            intro q hq
            have hqp : q ≠ p2 := fun h2 => hpnotin (h2 ▸ hq)
            have h3 := lookupKw_popKw_ne q p2 hqp kwargs
            rw [hpop] at h3
            dsimp only at h3
            rw [h3]
          rw [hcong]
          simp [hl]
      | none =>
          have hfst : o = Option.none := by
            have h2 := popKw_fst p2 kwargs
            rw [hpop, hl] at h2
            exact h2
          subst hfst
          have hrest : kwargs2 = kwargs := by
            have h2 := popKw_of_lookup_none p2 kwargs hl
            rw [hpop] at h2
            exact h2
          subst hrest
          dsimp only
          rw [ih defaults df kwargs2 (operands ++ [df p2])
            (fun q hq => hdf q (by simp [hq]))
            hpnd hknd
            (by
              intro k2 hk2
              have h3 := hsub k2 hk2
              simp at h3
              rcases h3 with h1 | h1
              · subst h1
                exact absurd hk2 ((lookupKw_none_iff k2 kwargs2).mp hl)
              · exact h1)]
          simp [hl]

theorem fillOperands_error {α : Type} :
    ∀ (ps : List String) (defaults : String → Option α)
      (kwargs : List (String × α)) (operands : List α) (k2 : String),
      (∀ p2 ∈ ps, defaults p2 ≠ Option.none) →
      k2 ∈ kwargs.map Prod.fst → k2 ∉ ps →
      fillOperands ps defaults kwargs operands = .error .unexpectedOperand := by
  intro ps
  induction ps with
  | nil =>
      intro defaults kwargs operands k2 _ hmem _
      have hne : ¬kwargs.isEmpty := by
        cases kwargs with
        | nil => simp at hmem
        | cons h rest => simp
      simp [fillOperands, hne]
  | cons p2 ps ih =>
      intro defaults kwargs operands k2 hdf hmem hnotin
      have hne : k2 ≠ p2 := fun h2 => hnotin (by simp [h2])
      have hnotps : k2 ∉ ps := fun h2 => hnotin (by simp [h2])
      obtain ⟨o, kwargs2, hpop⟩ :
          ∃ o kwargs2, popKw p2 kwargs = (o, kwargs2) :=
        ⟨(popKw p2 kwargs).1, (popKw p2 kwargs).2, rfl⟩
      have hkeys2 : kwargs2.map Prod.fst = (kwargs.map Prod.fst).erase p2 := by
        have h2 := popKw_keys p2 kwargs
        rw [hpop] at h2
        exact h2
      have hmem2 : k2 ∈ kwargs2.map Prod.fst := by
        rw [hkeys2]
        exact (List.mem_erase_of_ne hne).mpr hmem
      unfold fillOperands
      cases hd : defaults p2 with
      | none => exact absurd hd (hdf p2 (by simp))
      | some dflt =>
          rw [hpop]
          dsimp only
          cases o with
          | some v =>
              exact ih defaults kwargs2 (operands ++ [v]) k2
                (fun q hq => hdf q (by simp [hq])) hmem2 hnotps
          | none =>
              exact ih defaults kwargs2 (operands ++ [dflt]) k2
                (fun q hq => hdf q (by simp [hq])) hmem2 hnotps

/-- Claim C8 (amended): provided every parameter beyond the positional
prefix has a declared default (the source evaluates
`cls._defaults[parameter]` eagerly, so a defaultless parameter fails with a
`KeyError` even when passed by keyword), construction binds positional and
keyword operands, fills every unspecified parameter from the declared
defaults in declared parameter order, and fails with `UnexpectedOperand`
when any keyword argument does not match a declared parameter. -/
theorem construct_claim {α : Type} (params : List String)
    (defaults : String → Option α) (df : String → α) (args : List α)
    (kwargs : List (String × α))
    (hdefaults : ∀ p2 ∈ params.drop args.length,
      defaults p2 = Option.some (df p2)) :
    ((params.drop args.length).Nodup →
      (kwargs.map Prod.fst).Nodup →
      (∀ k2 ∈ kwargs.map Prod.fst, k2 ∈ params.drop args.length) →
      construct params defaults args kwargs =
        .ok (args ++ (params.drop args.length).map
          (fun p2 => (lookupKw p2 kwargs).getD (df p2)))) ∧
    (∀ k2 ∈ kwargs.map Prod.fst, k2 ∉ params →
      construct params defaults args kwargs = .error .unexpectedOperand) := by
  constructor
  · intro h1 h2 h3
    exact fillOperands_ok _ defaults df kwargs args hdefaults h1 h2 h3
  · intro k2 hmem hnot
    refine fillOperands_error _ defaults kwargs args k2 ?_ hmem ?_
    · intro q hq
      rw [hdefaults q hq]
      simp
    · intro hin
      exact hnot (List.mem_of_mem_drop hin)

/-- Witness for claim C8 on the `ReadCSV` kind: `usecols` filled from its
default, `header` bound by keyword; an undeclared keyword is rejected. -/
theorem construct_claim_witness :
    construct readCSVParams readCSVDefaults ["data.csv"] [("header", "0")] =
      .ok ["data.csv", "None", "0"] ∧
    construct readCSVParams readCSVDefaults ["data.csv"] [("bogus", "1")] =
      .error .unexpectedOperand := by
  constructor
  · have h := (construct_claim readCSVParams readCSVDefaults (fun _ => "None")
      ["data.csv"] [("header", "0")] (by decide)).1 (by decide) (by decide)
      (by decide)
    rw [h]
    rfl
  · exact (construct_claim readCSVParams readCSVDefaults (fun _ => "None")
      ["data.csv"] [("bogus", "1")] (by decide)).2 "bogus" (by decide) (by decide)

/-- Claim C8 counterexample: a keyword for the declared parameter
`predicate` of the `Filter` kind (which has no declared default) does not
bind — the eager default lookup raises `KeyError` (`missingOperand`), so
construction neither succeeds nor reports `UnexpectedOperand`. -/
theorem construct_counterexample :
    construct ["frame", "predicate"] (fun _ => (Option.none : Option String))
        ["df"] [("predicate", "cond")] = .error .missingOperand ∧
    (.error .missingOperand : Except ConstructErr (List String)) ≠
      .ok ["df", "cond"] ∧
    (.error .missingOperand : Except ConstructErr (List String)) ≠
      .error .unexpectedOperand := by
  refine ⟨rfl, fun h => Except.noConfusion h, fun h => ?_⟩
  injection h with h2
  exact ConstructErr.noConfusion h2

/-- Claim C4 (amended): for the blockwise kinds that inherit
`Blockwise._divisions` (`Filter` and the binary operations), expression
operands with differing divisions make the divisions computation fail with
the unaligned-partitions assertion; construction of the node itself
succeeds regardless — the check runs when divisions are computed, not at
build time. -/
theorem blockwise_unaligned_divisions (k : BinKind) (l r f p : Expr)
    (hl : l.isNum = false) (hr : r.isNum = false)
    (dl dr dfr dpr : List (Option Int))
    (hdl : divisionsE l = .ok dl) (hdr : divisionsE r = .ok dr)
    (hne : dr ≠ dl)
    (hdf : divisionsE f = .ok dfr) (hdp : divisionsE p = .ok dpr)
    (hne2 : dpr ≠ dfr) :
    divisionsE (.binop k l r) = .error .unaligned ∧
    divisionsE (.filter f p) = .error .unaligned ∧
    construct ["left", "right"] (fun _ => (Option.none : Option Expr))
        [l, r] [] = .ok [l, r] ∧
    construct ["frame", "predicate"] (fun _ => (Option.none : Option Expr))
        [f, p] [] = .ok [f, p] := by
  refine ⟨?_, ?_, rfl, rfl⟩
  · simp [divisionsE, hl, hr, hdl, hdr, hne, Except.bind, bind]
  · simp [divisionsE, hdf, hdp, hne2, Except.bind, bind]

/-- Witness for claim C4 at two `from_pandas` leaves with 1 and 2
partitions. -/
theorem blockwise_unaligned_divisions_witness :
    divisionsE (.binop .add (.fromPandas "a" 1) (.fromPandas "b" 2)) =
      .error .unaligned ∧
    divisionsE (.filter (.fromPandas "a" 1) (.fromPandas "b" 2)) =
      .error .unaligned :=
  ⟨(blockwise_unaligned_divisions .add (.fromPandas "a" 1) (.fromPandas "b" 2)
      (.fromPandas "a" 1) (.fromPandas "b" 2) rfl rfl
      (List.replicate 2 Option.none) (List.replicate 3 Option.none)
      (List.replicate 2 Option.none) (List.replicate 3 Option.none)
      rfl rfl (by decide) rfl rfl (by decide)).1,
   (blockwise_unaligned_divisions .add (.fromPandas "a" 1) (.fromPandas "b" 2)
      (.fromPandas "a" 1) (.fromPandas "b" 2) rfl rfl
      (List.replicate 2 Option.none) (List.replicate 3 Option.none)
      (List.replicate 2 Option.none) (List.replicate 3 Option.none)
      rfl rfl (by decide) rfl rfl (by decide)).2.1⟩

/-- Claim C4 counterexample: a blockwise node over operands with differing
divisions is constructed successfully — no error at build time — while its
divisions computation fails; the claim's "fails at the time the node is
built" is false on the code. -/
theorem blockwise_unaligned_counterexample :
    construct ["left", "right"] (fun _ => (Option.none : Option Expr))
        [Expr.fromPandas "a" 1, Expr.fromPandas "b" 2] [] =
      .ok [Expr.fromPandas "a" 1, Expr.fromPandas "b" 2] ∧
    divisionsE (.binop .add (.fromPandas "a" 1) (.fromPandas "b" 2)) =
      .error .unaligned := by
  refine ⟨rfl, ?_⟩
  rfl

theorem one_le_esize : (e : Expr) → 1 ≤ esize e
  | .readParquet _ _ _ => by simp [esize]
  | .filter f p => by simp only [esize]; omega
  | .projection f _ => by simp only [esize]; omega
  | .binop k l r => by simp only [esize]; omega
  | .lit _ => by simp [esize]
  | .fromPandas _ _ => by simp [esize]

theorem childrenE_sum_lt (e : Expr) :
    ((childrenE e).map esize).sum < esize e := by
  cases e with
  | filter f p => simp [childrenE, esize]
  | projection f c => simp [childrenE, esize]
  | binop k l r =>
      simp only [childrenE, esize]
      by_cases hl : l.isNum <;> by_cases hr : r.isNum <;>
        simp [hl, hr] <;> omega
  | readParquet a b c => simp [childrenE, esize]
  | lit n => simp [childrenE, esize]
  | fromPandas a b => simp [childrenE, esize]

theorem childrenE_esize_lt (e c : Expr) (hc : c ∈ childrenE e) :
    esize c < esize e := by
  have h1 : esize c ≤ ((childrenE e).map esize).sum :=
    List.single_le_sum (fun x _ => Nat.zero_le x) (esize c)
      (List.mem_map_of_mem esize hc)
  exact lt_of_le_of_lt h1 (childrenE_sum_lt e)

theorem self_mem_subtermsE (e : Expr) : e ∈ subtermsE e := by
  cases e <;> simp [subtermsE]

theorem mem_subtermsE_elim (x y : Expr) (h : y ∈ subtermsE x) :
    y = x ∨ ∃ c ∈ childrenE x, y ∈ subtermsE c := by
  cases x with
  | filter f p =>
      simp only [subtermsE, List.mem_cons, List.mem_append] at h
      rcases h with h | h | h
      · exact Or.inl h
      · exact Or.inr ⟨f, by simp [childrenE], h⟩
      · exact Or.inr ⟨p, by simp [childrenE], h⟩
  | projection f c =>
      simp only [subtermsE, List.mem_cons] at h
      rcases h with h | h
      · exact Or.inl h
      · exact Or.inr ⟨f, by simp [childrenE], h⟩
  | binop k l r =>
      simp only [subtermsE, List.mem_cons, List.mem_append] at h
      rcases h with h | h | h
      · exact Or.inl h
      · by_cases hl : l.isNum
        · simp [hl] at h
        · rw [if_neg hl] at h
          exact Or.inr ⟨l, by simp [childrenE, hl], h⟩
      · by_cases hr : r.isNum
        · simp [hr] at h
        · rw [if_neg hr] at h
          exact Or.inr ⟨r, by simp [childrenE, hr], h⟩
  | readParquet a b c => simp only [subtermsE, List.mem_singleton] at h; exact Or.inl h
  | lit n => simp only [subtermsE, List.mem_singleton] at h; exact Or.inl h
  | fromPandas a b => simp only [subtermsE, List.mem_singleton] at h; exact Or.inl h

theorem mem_subtermsE_of_child (x c y : Expr) (hc : c ∈ childrenE x)
    (hy : y ∈ subtermsE c) : y ∈ subtermsE x := by
  cases x with
  | filter f p =>
      simp only [childrenE, List.mem_cons, List.not_mem_nil, or_false] at hc
      simp only [subtermsE, List.mem_cons, List.mem_append]
      rcases hc with h | h <;> subst h
      · exact Or.inr (Or.inl hy)
      · exact Or.inr (Or.inr hy)
  | projection f c2 =>
      simp only [childrenE, List.mem_singleton] at hc
      subst hc
      simp only [subtermsE, List.mem_cons]
      exact Or.inr hy
  | binop k l r =>
      simp only [childrenE, List.mem_append] at hc
      simp only [subtermsE, List.mem_cons, List.mem_append]
      rcases hc with h | h
      · split at h
        · simp at h
        · simp only [List.mem_singleton] at h
          subst h
          refine Or.inr (Or.inl ?_)
          split
          · simp_all
          · exact hy
      · split at h
        · simp at h
        · simp only [List.mem_singleton] at h
          subst h
          refine Or.inr (Or.inr ?_)
          split
          · simp_all
          · exact hy
  | readParquet a b c2 => simp [childrenE] at hc
  | lit n => simp [childrenE] at hc
  | fromPandas a b => simp [childrenE] at hc

theorem dfs_acc_mem :
    ∀ (n : Nat) (stack seen layers : List Expr),
      (stack.map esize).sum ≤ n →
      ∀ x ∈ layers, x ∈ dfsNodes stack seen layers := by
  intro n
  induction n with
  | zero =>
      intro stack seen layers hle x hx
      cases stack with
      | nil => simpa [dfsNodes] using hx
      | cons e rest =>
          exfalso
          have := one_le_esize e
          simp only [List.map_cons, List.sum_cons] at hle
          omega
  | succ n ih =>
      intro stack seen layers hle x hx
      cases stack with
      | nil => simpa [dfsNodes] using hx
      | cons e rest =>
          have he := one_le_esize e
          simp only [List.map_cons, List.sum_cons] at hle
          unfold dfsNodes
          split
          · exact ih rest seen layers (by omega) x hx
          · refine ih _ _ _ ?_ x (by simp [hx])
            simp only [List.map_append, List.sum_append, List.map_reverse,
              List.sum_reverse]
            have := childrenE_sum_lt e
            omega

theorem dfs_sound :
    ∀ (n : Nat) (stack seen layers : List Expr),
      (stack.map esize).sum ≤ n →
      ∀ x ∈ dfsNodes stack seen layers,
        x ∈ layers ∨ ∃ s ∈ stack, x ∈ subtermsE s := by
  intro n
  induction n with
  | zero =>
      intro stack seen layers hle x hx
      cases stack with
      | nil => simp [dfsNodes] at hx; exact Or.inl hx
      | cons e rest =>
          exfalso
          have := one_le_esize e
          simp only [List.map_cons, List.sum_cons] at hle
          omega
  | succ n ih =>
      intro stack seen layers hle x hx
      cases stack with
      | nil => simp [dfsNodes] at hx; exact Or.inl hx
      | cons e rest =>
          have he := one_le_esize e
          simp only [List.map_cons, List.sum_cons] at hle
          unfold dfsNodes at hx
          split at hx
          · rcases ih rest seen layers (by omega) x hx with h | ⟨s, hs, h2⟩
            · exact Or.inl h
            · exact Or.inr ⟨s, List.mem_cons_of_mem e hs, h2⟩
          · have hm : ((((childrenE e).reverse ++ rest).map esize).sum ≤ n) := by
              simp only [List.map_append, List.sum_append, List.map_reverse,
                List.sum_reverse]
              have := childrenE_sum_lt e
              omega
            rcases ih _ _ _ hm x hx with h | ⟨s, hs, h2⟩
            · rcases List.mem_append.mp h with h3 | h3
              · exact Or.inl h3
              · simp only [List.mem_singleton] at h3
                exact Or.inr ⟨e, List.mem_cons_self e rest,
                  by rw [h3]; exact self_mem_subtermsE e⟩
            · rcases List.mem_append.mp hs with h3 | h3
              · have hc : s ∈ childrenE e := List.mem_reverse.mp h3
                exact Or.inr ⟨e, List.mem_cons_self e rest,
                  mem_subtermsE_of_child e s x hc h2⟩
              · exact Or.inr ⟨s, List.mem_cons_of_mem e h3, h2⟩

theorem dfs_stack_mem :
    ∀ (n : Nat) (stack seen layers : List Expr),
      (stack.map esize).sum ≤ n →
      (∀ s ∈ seen, s ∈ layers) →
      ∀ x ∈ stack, x ∈ dfsNodes stack seen layers := by
  intro n
  induction n with
  | zero =>
      intro stack seen layers hle _ x hx
      cases stack with
      | nil => simp at hx
      | cons e rest =>
          exfalso
          have := one_le_esize e
          simp only [List.map_cons, List.sum_cons] at hle
          omega
  | succ n ih =>
      intro stack seen layers hle hsa x hx
      cases stack with
      | nil => simp at hx
      | cons e rest =>
          have he := one_le_esize e
          simp only [List.map_cons, List.sum_cons] at hle
          unfold dfsNodes
          split
          · rename_i hseen
            rcases List.mem_cons.mp hx with h | h
            · subst h
              exact dfs_acc_mem n rest seen layers (by omega) x (hsa x hseen)
            · exact ih rest seen layers (by omega) hsa x h
          · have hm : ((((childrenE e).reverse ++ rest).map esize).sum ≤ n) := by
              simp only [List.map_append, List.sum_append, List.map_reverse,
                List.sum_reverse]
              have := childrenE_sum_lt e
              omega
            rcases List.mem_cons.mp hx with h | h
            · subst h
              exact dfs_acc_mem n _ _ _ hm x (by simp)
            · refine ih _ _ _ hm ?_ x (by simp [h])
              intro s hs
              rcases List.mem_cons.mp hs with h2 | h2
              · subst h2; simp
              · simp [hsa s h2]

theorem dfs_closed :
    ∀ (n : Nat) (stack seen layers : List Expr),
      (stack.map esize).sum ≤ n →
      (∀ s ∈ seen, ∀ c ∈ childrenE s, c ∈ seen ∨ c ∈ stack) →
      (∀ s ∈ seen, s ∈ layers) →
      (∀ a ∈ layers, a ∈ seen) →
      ∀ x ∈ dfsNodes stack seen layers, ∀ c ∈ childrenE x,
        c ∈ dfsNodes stack seen layers := by
  intro n
  induction n with
  | zero =>
      intro stack seen layers hle hI hsa has x hx c hc
      cases stack with
      | nil =>
          simp only [dfsNodes] at hx ⊢
          rcases hI x (has x hx) c hc with h | h
          · exact hsa c h
          · simp at h
      | cons e rest =>
          exfalso
          have := one_le_esize e
          simp only [List.map_cons, List.sum_cons] at hle
          omega
  | succ n ih =>
      intro stack seen layers hle hI hsa has x hx c hc
      cases stack with
      | nil =>
          simp only [dfsNodes] at hx ⊢
          rcases hI x (has x hx) c hc with h | h
          · exact hsa c h
          · simp at h
      | cons e rest =>
          have he := one_le_esize e
          simp only [List.map_cons, List.sum_cons] at hle
          unfold dfsNodes at hx ⊢
          split at hx
          · rename_i hseen
            rw [if_pos hseen]
            refine ih rest seen layers (by omega) ?_ hsa has x hx c hc
            intro s hs c2 hc2
            rcases hI s hs c2 hc2 with h | h
            · exact Or.inl h
            · rcases List.mem_cons.mp h with h2 | h2
              · subst h2; exact Or.inl hseen
              · exact Or.inr h2
          · rename_i hseen
            rw [if_neg hseen]
            have hm : ((((childrenE e).reverse ++ rest).map esize).sum ≤ n) := by
              simp only [List.map_append, List.sum_append, List.map_reverse,
                List.sum_reverse]
              have := childrenE_sum_lt e
              omega
            refine ih _ _ _ hm ?_ ?_ ?_ x hx c hc
            · intro s hs c2 hc2
              rcases List.mem_cons.mp hs with h2 | h2
              · subst h2
                exact Or.inr (List.mem_append_left rest (List.mem_reverse.mpr hc2))
              · rcases hI s h2 c2 hc2 with h3 | h3
                · exact Or.inl (List.mem_cons_of_mem e h3)
                · rcases List.mem_cons.mp h3 with h4 | h4
                  · subst h4; exact Or.inl (List.mem_cons_self c2 seen)
                  · exact Or.inr (List.mem_append_right _ h4)
            · intro s hs
              rcases List.mem_cons.mp hs with h2 | h2
              · subst h2; simp
              · simp [hsa s h2]
            · intro a ha
              rcases List.mem_append.mp ha with h2 | h2
              · exact List.mem_cons_of_mem e (has a h2)
              · simp only [List.mem_singleton] at h2
                subst h2
                exact List.mem_cons_self a seen

theorem dfs_nodup :
    ∀ (n : Nat) (stack seen layers : List Expr),
      (stack.map esize).sum ≤ n →
      layers.Nodup → (∀ a ∈ layers, a ∈ seen) →
      (dfsNodes stack seen layers).Nodup := by
  intro n
  induction n with
  | zero =>
      intro stack seen layers hle hnd has
      cases stack with
      | nil => simpa [dfsNodes] using hnd
      | cons e rest =>
          exfalso
          have := one_le_esize e
          simp only [List.map_cons, List.sum_cons] at hle
          omega
  | succ n ih =>
      intro stack seen layers hle hnd has
      cases stack with
      | nil => simpa [dfsNodes] using hnd
      | cons e rest =>
          have he := one_le_esize e
          simp only [List.map_cons, List.sum_cons] at hle
          unfold dfsNodes
          split
          · exact ih rest seen layers (by omega) hnd has
          · rename_i hseen
            have hm : ((((childrenE e).reverse ++ rest).map esize).sum ≤ n) := by
              simp only [List.map_append, List.sum_append, List.map_reverse,
                List.sum_reverse]
              have := childrenE_sum_lt e
              omega
            refine ih _ _ _ hm ?_ ?_
            · rw [List.nodup_append]
              refine ⟨hnd, List.nodup_singleton e, ?_⟩
              intro a ha ha2
              simp only [List.mem_singleton] at ha2
              subst ha2
              exact hseen (has a ha)
            · intro a ha
              rcases List.mem_append.mp ha with h2 | h2
              · exact List.mem_cons_of_mem e (has a h2)
              · simp only [List.mem_singleton] at h2
                subst h2
                exact List.mem_cons_self a seen

theorem daskGraph_subterm_closed :
    ∀ (m : Nat) (x : Expr), esize x ≤ m →
      ∀ (root : Expr), x ∈ daskGraphNodes root →
      ∀ y ∈ subtermsE x, y ∈ daskGraphNodes root := by
  intro m
  induction m with
  | zero =>
      intro x hx
      have := one_le_esize x
      omega
  | succ m ih =>
      intro x hx root hmem y hy
      rcases mem_subtermsE_elim x y hy with h | ⟨c, hc, hyc⟩
      · subst h; exact hmem
      · have hcmem : c ∈ daskGraphNodes root :=
          dfs_closed (esize root) [root] [] [] (by simp)
            (by simp) (by simp) (by simp) x hmem c hc
        have hsz := childrenE_esize_lt x c hc
        exact ih c (by omega) root hcmem y hyc

/-- Claim C9: compiling a tree in which a sub-expression node is referenced
by several parents produces that node's layer exactly once — the collected
layer list has no duplicate node, and it contains exactly the
sub-expressions reachable through expression operands. -/
theorem daskGraph_dedup (root : Expr) :
    (daskGraphNodes root).Nodup ∧
    ∀ e, e ∈ daskGraphNodes root ↔ e ∈ subtermsE root := by
  constructor
  · exact dfs_nodup (esize root) [root] [] [] (by simp) List.nodup_nil (by simp)
  · intro e
    constructor
    · intro h
      rcases dfs_sound (esize root) [root] [] [] (by simp) e h with h2 | ⟨s, hs, h2⟩
      · simp at h2
      · simp only [List.mem_singleton] at hs
        subst hs
        exact h2
    · intro h
      have hroot : root ∈ daskGraphNodes root :=
        dfs_stack_mem (esize root) [root] [] [] (by simp) (by simp) root (by simp)
      exact daskGraph_subterm_closed (esize root) root le_rfl root hroot e h

end DaskMatch

